import Mathlib

/-!
Shallow embedding of the repository's two source files:

  * `utils.py` — class `DiscreteRandomVariable` (finite probability mass
    function over rationals, with arithmetic combination via cross-product
    convolution, transform, expectation, dispersion and sampling), and
  * `binomial-model.py` — class `BinomialModel` (binomial tree pricing of
    European options and the delta hedge ratio).

Real numbers of the Python code are modelled as `ℚ`.  Python `assert`
failures are modelled by `Except DRVErr`.  Python's `round(x, 5)` is
modelled as exact decimal rounding with ties to even (`rndHalfEven`).
Python's stable `list.sort()` on `[domain, weight]` pairs is modelled by
`List.insertionSort` under the lexicographic order `pairLe`; since that
order is total and antisymmetric on pairs, every sorting algorithm
(including Python's) returns the same list, so the choice of algorithm is
observationally irrelevant.  The random draw consumed by `pick` is passed
in explicitly as the `threshold` argument.
-/

/-- Rounding of a rational to the nearest integer, ties to even, as Python's
builtin `round` does. -/
def rndHalfEven (x : ℚ) : ℤ :=
  let n : ℤ := ⌊x⌋
  let f : ℚ := x - (n : ℚ)
  if f < 1/2 then n
  else if 1/2 < f then n + 1
  else if n % 2 = 0 then n else n + 1

/-- Rounding to `p` decimal places (Python `round(x, p)`), exact over `ℚ`. -/
def roundTo (x : ℚ) (p : ℕ) : ℚ :=
  (rndHalfEven (x * 10 ^ p) : ℚ) / 10 ^ p

/-- The fixed precision used by the arithmetic methods: `round(_, 5)`. -/
def round5 (x : ℚ) : ℚ := roundTo x 5

/-- Lexicographic comparison of `[domain value, weight]` pairs, the order under
which Python's `data.sort()` sorts the constructor's pair list. -/
def pairLe (a b : ℚ × ℚ) : Prop :=
  a.1 < b.1 ∨ (a.1 = b.1 ∧ a.2 ≤ b.2)

instance : DecidableRel pairLe := fun a b => by
  unfold pairLe; infer_instance

/-- Sorting of the constructor's pair list (Python `data.sort()`). -/
def sortPairs (l : List (ℚ × ℚ)) : List (ℚ × ℚ) :=
  List.insertionSort pairLe l

/-- Failure of one of the Python `assert` statements (all raise
`AssertionError`; the constructors record which assert fired). -/
inductive DRVErr where
  | sizeMismatch : DRVErr
  | nonpositiveWeights : DRVErr
  | expiredOption : DRVErr
  deriving DecidableEq

/-- The state of a `DiscreteRandomVariable` object: display name, sorted
outcome array and the aligned probability array. -/
structure DiscreteRandomVariable where
  name : String
  domain : List ℚ
  probability : List ℚ
  deriving DecidableEq

abbrev DRV := DiscreteRandomVariable

/-- Constructor `DiscreteRandomVariable.__init__`.  With `weights = none` each outcome
gets weight `1/len(domain)`; otherwise the weights must match the domain in
length and have positive sum, and are normalized by that sum.  The
`[domain value, weight]` pairs are then sorted lexicographically and stored
as the two parallel arrays.  (The `isinstance(name, str)` assert cannot fail
here since `name : String`.) -/
def mkDRV (domain : List ℚ) (weights : Option (List ℚ)) (name : String) :
    Except DRVErr DRV :=
  match weights with
  | none =>
    let data := sortPairs (domain.map (fun d => (d, 1 / (domain.length : ℚ))))
    .ok ⟨name, data.map Prod.fst, data.map Prod.snd⟩
  | some ws =>
    if ws.length = domain.length then
      if 0 < ws.sum then
        let norm := ws.map (fun w => w / ws.sum)
        let data := sortPairs (domain.zip norm)
        .ok ⟨name, data.map Prod.fst, data.map Prod.snd⟩
      else .error .nonpositiveWeights
    else .error .sizeMismatch

/-- One `values[new_val] = values.get(new_val, 0) + new_weight` step on a
Python dict represented as an association list in insertion order (an update
keeps the key's original position, a fresh key is appended). -/
def addToAssoc : List (ℚ × ℚ) → ℚ → ℚ → List (ℚ × ℚ)
  | [], k, v => [(k, v)]
  | (k₀, v₀) :: t, k, v =>
    if k₀ = k then (k₀, v₀ + v) :: t
    else (k₀, v₀) :: addToAssoc t k v

/-- The flat list of `(round(op(a_i, b_j), 5), p_i * q_j)` pairs in the
iteration order of `itertools.product(range(n), range(m))`. -/
def kvList (op : ℚ → ℚ → ℚ) (A B : DRV) : List (ℚ × ℚ) :=
  (List.range A.domain.length).flatMap (fun i =>
    (List.range B.domain.length).map (fun j =>
      (round5 (op (A.domain.getD i 0) (B.domain.getD j 0)),
       A.probability.getD i 0 * B.probability.getD j 0)))

/-- Accumulation of key/weight pairs into the `values` dict. -/
def dictOf (kvs : List (ℚ × ℚ)) : List (ℚ × ℚ) :=
  kvs.foldl (fun acc kv => addToAssoc acc kv.1 kv.2) []

/-- The DRV-operand branch shared verbatim by `__add__`, `__sub__` and
`__mul__`: cross-product keys rounded to 5 decimals, weights accumulated in
the `values` dict, then fed back through the constructor. -/
def combine (op : ℚ → ℚ → ℚ) (symb : String) (A B : DRV) :
    Except DRVErr DRV :=
  let d := dictOf (kvList op A B)
  mkDRV (d.map Prod.fst) (some (d.map Prod.snd)) (A.name ++ symb ++ B.name)

/-- Method `DiscreteRandomVariable.__add__` on a DRV operand. -/
def DiscreteRandomVariable.add (A B : DRV) : Except DRVErr DRV := combine (· + ·) "+" A B

/-- Method `DiscreteRandomVariable.__mul__` on a DRV operand. -/
def DiscreteRandomVariable.mul (A B : DRV) : Except DRVErr DRV := combine (· * ·) "*" A B

/-- Method `DiscreteRandomVariable.transform`: pushforward of the mass function
through `f` (no rounding of the images), merged through the `values` dict
and rebuilt by the constructor. -/
def DiscreteRandomVariable.transform (X : DRV) (f : ℚ → ℚ) : Except DRVErr DRV :=
  let d := dictOf ((List.range X.domain.length).map (fun i =>
    (f (X.domain.getD i 0), X.probability.getD i 0)))
  mkDRV (d.map Prod.fst) (some (d.map Prod.snd)) X.name

/-- Method `DiscreteRandomVariable.expectation`: `Σ f(x_i)·p_i`, rounded only when a
truthy (`some p`, `p ≠ 0`) precision is supplied, mirroring Python's
`if precision:`. -/
def DiscreteRandomVariable.expectation (X : DRV) (f : ℚ → ℚ) (precision : Option ℕ) : ℚ :=
  let result := ((List.range X.domain.length).map (fun i =>
    f (X.domain.getD i 0) * X.probability.getD i 0)).sum
  match precision with
  | some p => if p = 0 then result else roundTo result p
  | none => result

/-- Method `DiscreteRandomVariable.dispersion`: the expectation of
`(x - expectation())²` computed through the expectation primitive. -/
def DiscreteRandomVariable.dispersion (X : DRV) (precision : Option ℕ) : ℚ :=
  X.expectation (fun x => (x - X.expectation (fun y => y) none) ^ 2) precision

/-- The `while threshold > w` scan of `pick`, walking the remaining
probability entries; `none` models the `IndexError` Python raises when `i`
runs past the end of the array. -/
def pickScan (t : ℚ) : List ℚ → ℚ → ℕ → Option ℕ
  | [], w, i => if t > w then none else some i
  | p :: tl, w, i => if t > w then pickScan t tl (w + p) (i + 1) else some i

/-- Method `DiscreteRandomVariable.pick` with the uniform draw `t` passed in
explicitly; returns the index the scan stops at (`i, w = 0, probability[0]`
initially).  `none` models an `IndexError` (also for the initial
`probability[0]` read on an empty array). -/
def DiscreteRandomVariable.pickIndex (X : DRV) (t : ℚ) : Option ℕ :=
  match X.probability with
  | [] => none
  | p :: tl => pickScan t tl p 0

/-- The value `pick` returns: `domain[i]` at the stopping index. -/
def DiscreteRandomVariable.pick (X : DRV) (t : ℚ) : Option ℚ :=
  (X.pickIndex t).bind (fun i => X.domain.get? i)

/-- The risk-neutral probability pair computed in `BinomialModel.__init__`:
`((1 + rate - d) / (u - d), (u - 1 - rate) / (u - d))`. -/
def riskNeutral (u d rate : ℚ) : ℚ × ℚ :=
  ((1 + rate - d) / (u - d), (u - 1 - rate) / (u - d))

/-- The state of a `BinomialModel` object. -/
structure BinomialModel where
  increment : DRV
  periods : ℕ
  rate : ℚ
  s0 : ℚ
  risk_neutral : ℚ × ℚ
  increment_risk_neutral : DRV
  deriving DecidableEq

/-- Constructor `BinomialModel.__init__(s0, u, d, p, q, rate, periods)`: builds the
real-world increment DRV over `{u, d}` with weights `{p, q}`, the
risk-neutral pair, and the risk-neutral increment DRV. -/
def mkBinomialModel (s0 u d p q rate : ℚ) (periods : ℕ) :
    Except DRVErr BinomialModel := do
  let inc ← mkDRV [u, d] (some [p, q]) "X"
  let rn := riskNeutral u d rate
  let incRN ← mkDRV [u, d] (some [rn.1, rn.2]) "X"
  pure ⟨inc, periods, rate, s0, rn, incRN⟩

/-- The payoff function selected by `european_option_evaluate`:
`max(x - strike, 0)` for a call, `max(strike - x, 0)` for a put. -/
def payoff (call : Bool) (strike x : ℚ) : ℚ :=
  if call then max (x - strike) 0 else max (strike - x) 0

/-- The `for _ in range(periods): expectation *= increment_risk_neutral`
loop, applying `__mul__` once per period. -/
def iterMul (inc : DRV) : ℕ → DRV → Except DRVErr DRV
  | 0, acc => .ok acc
  | n + 1, acc => do iterMul inc n (← acc.mul inc)

/-- Method `BinomialModel.european_option_evaluate(call, strike)`: terminal
risk-neutral price distribution by iterated multiplication starting from the
deterministic `{s0}`, payoff transform, expectation, then discounting by
`(1 + rate) ^ periods`. -/
def europeanOptionEvaluate (m : BinomialModel) (call : Bool) (strike : ℚ) :
    Except DRVErr ℚ := do
  let init ← mkDRV [m.s0] (some [1]) "X"
  let finalDist ← iterMul m.increment_risk_neutral m.periods init
  let transformed ← finalDist.transform (payoff call strike)
  pure (transformed.expectation (fun y => y) none / (1 + m.rate) ^ m.periods)

/-- Method `BinomialModel.delta(call, strike)`, exactly as the source builds the two
sub-models: `type(self)(self.s0 * u, u, d, p, q, self.periods - 1)` passes
`self.periods - 1` positionally into the `rate` parameter and leaves
`periods` at its default value `1`. -/
def BinomialModel.delta (m : BinomialModel) (call : Bool) (strike : ℚ) :
    Except DRVErr ℚ :=
  if m.periods = 0 then .error .expiredOption
  else do
    let u := m.increment.domain.getD 1 0
    let d := m.increment.domain.getD 0 0
    let p := m.increment.probability.getD 1 0
    let q := m.increment.probability.getD 0 0
    let mUp ← mkBinomialModel (m.s0 * u) u d p q ((m.periods : ℚ) - 1) 1
    let mDown ← mkBinomialModel (m.s0 * d) u d p q ((m.periods : ℚ) - 1) 1
    let vUp ← europeanOptionEvaluate mUp call strike
    let vDown ← europeanOptionEvaluate mDown call strike
    pure ((vUp - vDown) / (u - d) / m.s0)

/-- Delta as claim C1 describes it: two sub-models with one fewer period and
the same `u`, `d` and `rate`, rooted at `s0·u` and `s0·d`, evaluated and
finite-differenced.  Written from the claim's words, for comparison with
`BinomialModel.delta` above. -/
def deltaAsClaimed (m : BinomialModel) (call : Bool) (strike : ℚ) :
    Except DRVErr ℚ :=
  if m.periods = 0 then .error .expiredOption
  else do
    let u := m.increment.domain.getD 1 0
    let d := m.increment.domain.getD 0 0
    let p := m.increment.probability.getD 1 0
    let q := m.increment.probability.getD 0 0
    let mUp ← mkBinomialModel (m.s0 * u) u d p q m.rate (m.periods - 1)
    let mDown ← mkBinomialModel (m.s0 * d) u d p q m.rate (m.periods - 1)
    let vUp ← europeanOptionEvaluate mUp call strike
    let vDown ← europeanOptionEvaluate mDown call strike
    pure ((vUp - vDown) / ((u - d) * m.s0))

/-- The probability mass an association list of `(value, weight)` pairs
assigns to `x`: the sum of the weights of the entries keyed `x`. -/
def massOf : List (ℚ × ℚ) → ℚ → ℚ
  | [], _ => 0
  | kv :: t, x => (if kv.1 = x then kv.2 else 0) + massOf t x

/-- The probability a DRV assigns to the outcome `v`. -/
def DiscreteRandomVariable.mass (X : DRV) (v : ℚ) : ℚ :=
  massOf (X.domain.zip X.probability) v

/-- The convolution weight the specification prescribes for outcome `v` of
`A op B`: the sum of `P(A=a_i)·P(B=b_j)` over every index pair of the full
cross product whose rounded image is `v`.  Written from the spec's words,
for comparison with the code's `combine`. -/
def specConvWeight (op : ℚ → ℚ → ℚ) (A B : DRV) (v : ℚ) : ℚ :=
  ((List.range A.domain.length).map (fun i =>
    ((List.range B.domain.length).map (fun j =>
      if round5 (op (A.domain.getD i 0) (B.domain.getD j 0)) = v
      then A.probability.getD i 0 * B.probability.getD j 0 else 0)).sum)).sum

theorem massOf_eq_sum (l : List (ℚ × ℚ)) (x : ℚ) :
    massOf l x = (l.map (fun kv => if kv.1 = x then kv.2 else 0)).sum := by
  induction l with
  | nil => rfl
  | cons kv t ih => simp [massOf, ih]

theorem massOf_perm {l₁ l₂ : List (ℚ × ℚ)} (h : l₁.Perm l₂) (x : ℚ) :
    massOf l₁ x = massOf l₂ x := by
  rw [massOf_eq_sum, massOf_eq_sum]
  exact (h.map _).sum_eq

theorem massOf_append (l₁ l₂ : List (ℚ × ℚ)) (x : ℚ) :
    massOf (l₁ ++ l₂) x = massOf l₁ x + massOf l₂ x := by
  induction l₁ with
  | nil => simp [massOf]
  | cons kv t ih => simp [massOf, ih]; ring

theorem massOf_addToAssoc (l : List (ℚ × ℚ)) (k v x : ℚ) :
    massOf (addToAssoc l k v) x = massOf l x + (if k = x then v else 0) := by
  induction l with
  | nil => simp [addToAssoc, massOf]
  | cons kv t ih =>
    by_cases hk : kv.1 = k
    · cases kv with
      | mk k₀ v₀ =>
        simp only at hk
        simp only [addToAssoc, if_pos hk, massOf, hk]
        split <;> ring
    · cases kv with
      | mk k₀ v₀ =>
        simp only at hk
        simp only [addToAssoc, if_neg hk, massOf, ih]
        ring

theorem massOf_foldl (l : List (ℚ × ℚ)) (x : ℚ) :
    ∀ acc : List (ℚ × ℚ),
      massOf (l.foldl (fun a kv => addToAssoc a kv.1 kv.2) acc) x =
        massOf acc x + massOf l x := by
  induction l with
  | nil => intro acc; simp [massOf]
  | cons kv t ih =>
    intro acc
    simp only [List.foldl_cons, ih, massOf_addToAssoc, massOf]
    ring

theorem massOf_dictOf (l : List (ℚ × ℚ)) (x : ℚ) :
    massOf (dictOf l) x = massOf l x := by
  simp [dictOf, massOf_foldl, massOf]

theorem snd_sum_addToAssoc (l : List (ℚ × ℚ)) (k v : ℚ) :
    ((addToAssoc l k v).map Prod.snd).sum = (l.map Prod.snd).sum + v := by
  induction l with
  | nil => simp [addToAssoc]
  | cons kv t ih =>
    cases kv with
    | mk k₀ v₀ =>
      by_cases hk : k₀ = k
      · simp only [addToAssoc, if_pos hk, List.map_cons, List.sum_cons]
        ring
      · simp only [addToAssoc, if_neg hk, List.map_cons, List.sum_cons, ih]
        ring

theorem snd_sum_foldl (l : List (ℚ × ℚ)) :
    ∀ acc : List (ℚ × ℚ),
      ((l.foldl (fun a kv => addToAssoc a kv.1 kv.2) acc).map Prod.snd).sum =
        (acc.map Prod.snd).sum + (l.map Prod.snd).sum := by
  induction l with
  | nil => intro acc; simp
  | cons kv t ih =>
    intro acc
    simp only [List.foldl_cons, ih, snd_sum_addToAssoc, List.map_cons, List.sum_cons]
    ring

theorem snd_sum_dictOf (l : List (ℚ × ℚ)) :
    ((dictOf l).map Prod.snd).sum = (l.map Prod.snd).sum := by
  simp [dictOf, snd_sum_foldl]

theorem mem_fst_addToAssoc (l : List (ℚ × ℚ)) (k v x : ℚ) :
    x ∈ (addToAssoc l k v).map Prod.fst ↔ x ∈ l.map Prod.fst ∨ x = k := by
  induction l with
  | nil => simp [addToAssoc]
  | cons kv t ih =>
    cases kv with
    | mk k₀ v₀ =>
      by_cases hk : k₀ = k
      · subst hk
        simp only [addToAssoc, if_pos, List.map_cons, List.mem_cons]
        tauto
      · simp only [addToAssoc, if_neg hk, List.map_cons, List.mem_cons, ih]
        tauto

theorem mem_fst_foldl (l : List (ℚ × ℚ)) (x : ℚ) :
    ∀ acc : List (ℚ × ℚ),
      x ∈ (l.foldl (fun a kv => addToAssoc a kv.1 kv.2) acc).map Prod.fst ↔
        x ∈ acc.map Prod.fst ∨ x ∈ l.map Prod.fst := by
  induction l with
  | nil => intro acc; simp
  | cons kv t ih =>
    intro acc
    simp only [List.foldl_cons, ih, mem_fst_addToAssoc, List.map_cons, List.mem_cons]
    tauto

theorem mem_fst_dictOf (l : List (ℚ × ℚ)) (x : ℚ) :
    x ∈ (dictOf l).map Prod.fst ↔ x ∈ l.map Prod.fst := by
  rw [dictOf, mem_fst_foldl]
  simp

theorem getD_range_map (l : List ℚ) :
    (List.range l.length).map (fun i => l.getD i 0) = l := by
  induction l with
  | nil => simp
  | cons a t ih =>
    rw [List.length_cons, List.range_succ_eq_map, List.map_cons, List.map_map]
    simp only [List.getD_cons_zero, Function.comp_def, List.getD_cons_succ]
    rw [ih]
theorem massOf_flatMap {α : Type} (l : List α) (f : α → List (ℚ × ℚ)) (x : ℚ) :
    massOf (l.flatMap f) x = (l.map (fun a => massOf (f a) x)).sum := by
  induction l with
  | nil => simp [massOf]
  | cons a t ih => simp [List.flatMap_cons, massOf_append, ih]

theorem massOf_map_pair {α : Type} (l : List α) (k w : α → ℚ) (x : ℚ) :
    massOf (l.map (fun a => (k a, w a))) x =
      (l.map (fun a => if k a = x then w a else 0)).sum := by
  rw [massOf_eq_sum, List.map_map]
  rfl

theorem massOf_kvList (op : ℚ → ℚ → ℚ) (A B : DRV) (x : ℚ) :
    massOf (kvList op A B) x = specConvWeight op A B x := by
  rw [kvList, specConvWeight, massOf_flatMap]
  congr 1
  refine List.map_congr_left (fun i _ => ?_)
  rw [massOf_map_pair]

theorem list_sum_flatMap {α : Type} (l : List α) (f : α → List ℚ) :
    (l.flatMap f).sum = (l.map (fun a => (f a).sum)).sum := by
  induction l with
  | nil => simp
  | cons a t ih => simp [List.flatMap_cons, ih]

theorem snd_sum_kvList (op : ℚ → ℚ → ℚ) (A B : DRV)
    (hA : A.probability.length = A.domain.length)
    (hB : B.probability.length = B.domain.length) :
    ((kvList op A B).map Prod.snd).sum = A.probability.sum * B.probability.sum := by
  rw [kvList, List.map_flatMap, list_sum_flatMap]
  have inner : ∀ i : ℕ,
      (((List.range B.domain.length).map (fun j =>
        (round5 (op (A.domain.getD i 0) (B.domain.getD j 0)),
         A.probability.getD i 0 * B.probability.getD j 0))).map Prod.snd).sum =
        A.probability.getD i 0 * B.probability.sum := by
    intro i
    rw [List.map_map]
    have : ((List.range B.domain.length).map
        (Prod.snd ∘ fun j =>
          (round5 (op (A.domain.getD i 0) (B.domain.getD j 0)),
           A.probability.getD i 0 * B.probability.getD j 0))).sum =
        ((List.range B.domain.length).map (fun j =>
          A.probability.getD i 0 * B.probability.getD j 0)).sum := rfl
    rw [this, List.sum_map_mul_left, ← hB, getD_range_map]
  calc ((List.range A.domain.length).map (fun i =>
        (((List.range B.domain.length).map (fun j =>
          (round5 (op (A.domain.getD i 0) (B.domain.getD j 0)),
           A.probability.getD i 0 * B.probability.getD j 0))).map Prod.snd).sum)).sum
      = ((List.range A.domain.length).map (fun i =>
          A.probability.getD i 0 * B.probability.sum)).sum := by
        exact congrArg List.sum (List.map_congr_left (fun i _ => inner i))
    _ = A.probability.sum * B.probability.sum := by
        rw [List.sum_map_mul_right, ← hA, getD_range_map]
theorem zip_map_fst_snd {α β : Type} (l : List (α × β)) :
    (l.map Prod.fst).zip (l.map Prod.snd) = l := by
  have h := List.zip_unzip l
  rwa [List.unzip_eq_map] at h

theorem massOf_map_div (l : List (ℚ × ℚ)) (s x : ℚ) :
    massOf (l.map (Prod.map id (fun w => w / s))) x = massOf l x / s := by
  induction l with
  | nil => simp [massOf]
  | cons kv t ih =>
    cases kv with
    | mk k w =>
      simp only [List.map_cons, massOf, Prod.map, id, ih]
      split
      · rw [add_div]
      · rw [add_div, zero_div]

theorem massOf_zip_map_div (dom ws : List ℚ) (s x : ℚ) :
    massOf (dom.zip (ws.map (fun w => w / s))) x = massOf (dom.zip ws) x / s := by
  rw [List.zip_map_right, massOf_map_div]

theorem mkDRV_some_def (dom ws : List ℚ) (name : String) :
    mkDRV dom (some ws) name =
      if ws.length = dom.length then
        if 0 < ws.sum then
          Except.ok ⟨name,
            (sortPairs (dom.zip (ws.map (fun w => w / ws.sum)))).map Prod.fst,
            (sortPairs (dom.zip (ws.map (fun w => w / ws.sum)))).map Prod.snd⟩
        else Except.error DRVErr.nonpositiveWeights
      else Except.error DRVErr.sizeMismatch := rfl

theorem mkDRV_ok_some {dom ws : List ℚ} {name : String} {X : DRV}
    (h : mkDRV dom (some ws) name = .ok X) :
    ws.length = dom.length ∧ 0 < ws.sum ∧ X.name = name ∧
    X.domain = (sortPairs (dom.zip (ws.map (fun w => w / ws.sum)))).map Prod.fst ∧
    X.probability =
      (sortPairs (dom.zip (ws.map (fun w => w / ws.sum)))).map Prod.snd := by
  rw [mkDRV_some_def] at h
  by_cases h1 : ws.length = dom.length
  · by_cases h2 : 0 < ws.sum
    · rw [if_pos h1, if_pos h2] at h
      cases h
      exact ⟨h1, h2, rfl, rfl, rfl⟩
    · rw [if_pos h1, if_neg h2] at h
      exact Except.noConfusion h
  · rw [if_neg h1] at h
    exact Except.noConfusion h

theorem sortPairs_perm (l : List (ℚ × ℚ)) : (sortPairs l).Perm l :=
  List.perm_insertionSort pairLe l

theorem mass_mkDRV_some {dom ws : List ℚ} {name : String} {X : DRV}
    (h : mkDRV dom (some ws) name = .ok X) (x : ℚ) :
    X.mass x = massOf (dom.zip ws) x / ws.sum := by
  obtain ⟨h1, h2, hn, hd, hp⟩ := mkDRV_ok_some h
  rw [DiscreteRandomVariable.mass, hd, hp, zip_map_fst_snd]
  rw [massOf_perm (sortPairs_perm _) x]
  rw [massOf_zip_map_div]

theorem mem_domain_mkDRV_some {dom ws : List ℚ} {name : String} {X : DRV}
    (h : mkDRV dom (some ws) name = .ok X) (x : ℚ) :
    x ∈ X.domain ↔ x ∈ dom := by
  obtain ⟨h1, h2, hn, hd, hp⟩ := mkDRV_ok_some h
  rw [hd]
  rw [((sortPairs_perm (dom.zip (ws.map (fun w => w / ws.sum)))).map Prod.fst).mem_iff]
  rw [List.map_fst_zip]
  rw [List.length_map, h1]
theorem combine_ok_mass (op : ℚ → ℚ → ℚ) (symb : String) (A B R : DRV)
    (hlA : A.probability.length = A.domain.length)
    (hlB : B.probability.length = B.domain.length)
    (hA1 : A.probability.sum = 1) (hB1 : B.probability.sum = 1)
    (hR : combine op symb A B = .ok R) (v : ℚ) :
    R.mass v = specConvWeight op A B v ∧
    (v ∈ R.domain ↔ ∃ i < A.domain.length, ∃ j < B.domain.length,
      round5 (op (A.domain.getD i 0) (B.domain.getD j 0)) = v) := by
  rw [combine] at hR
  have hsum : ((dictOf (kvList op A B)).map Prod.snd).sum = 1 := by
    rw [snd_sum_dictOf, snd_sum_kvList op A B hlA hlB, hA1, hB1, one_mul]
  constructor
  · rw [mass_mkDRV_some hR, hsum, div_one, zip_map_fst_snd, massOf_dictOf,
      massOf_kvList]
  · rw [mem_domain_mkDRV_some hR, mem_fst_dictOf, kvList, List.map_flatMap]
    simp only [List.mem_flatMap, List.mem_range, List.map_map, List.mem_map,
      Function.comp]
def cwA : DRV := ⟨"A", [1, 2], [1/2, 1/2]⟩

def cwB : DRV := ⟨"B", [10, 20], [1/2, 1/2]⟩

def cwR : DRV := ⟨"A+B", [11, 12, 21, 22], [1/4, 1/4, 1/4, 1/4]⟩

/-- Claim C2: for every two DRVs `A` (with `n` outcomes) and `B` (with `m`
outcomes) whose probability arrays are aligned with their domains and sum
to 1, the result of `A + B` (and likewise `A * B`) assigns to each outcome
`v` exactly the total weight `Σ P(A=a_i)·P(B=b_j)` over the full cross
product of index pairs whose rounded image `round(op(a_i,b_j), 5)` is `v`
(coincident outcomes merged by summing), and its domain is exactly the set
of those rounded images. -/
theorem claim_C2_convolution (A B : DRV)
    (hlA : A.probability.length = A.domain.length)
    (hlB : B.probability.length = B.domain.length)
    (hA1 : A.probability.sum = 1) (hB1 : B.probability.sum = 1) :
    (∀ R : DRV, A.add B = .ok R → ∀ v : ℚ,
      R.mass v = specConvWeight (· + ·) A B v ∧
      (v ∈ R.domain ↔ ∃ i < A.domain.length, ∃ j < B.domain.length,
        round5 (A.domain.getD i 0 + B.domain.getD j 0) = v)) ∧
    (∀ R : DRV, A.mul B = .ok R → ∀ v : ℚ,
      R.mass v = specConvWeight (· * ·) A B v ∧
      (v ∈ R.domain ↔ ∃ i < A.domain.length, ∃ j < B.domain.length,
        round5 (A.domain.getD i 0 * B.domain.getD j 0) = v)) := by
  constructor
  · intro R hR v
    unfold DiscreteRandomVariable.add at hR
    exact combine_ok_mass (· + ·) "+" A B R hlA hlB hA1 hB1 hR v
  · intro R hR v
    unfold DiscreteRandomVariable.mul at hR
    exact combine_ok_mass (· * ·) "*" A B R hlA hlB hA1 hB1 hR v

/-- Witness for C2 at the spec's own example
`DRV({1,2},{0.5,0.5}) + DRV({10,20},{0.5,0.5})`: the sum has domain
`{11,12,21,22}`, each outcome carrying mass `1/4`. -/
theorem claim_C2_witness :
    cwA.probability.length = cwA.domain.length ∧
    cwB.probability.length = cwB.domain.length ∧
    cwA.probability.sum = 1 ∧ cwB.probability.sum = 1 ∧
    cwA.add cwB = .ok cwR ∧
    cwR.mass 11 = specConvWeight (· + ·) cwA cwB 11 ∧ cwR.mass 11 = 1/4 := by
  have hadd : cwA.add cwB = .ok cwR := by
    norm_num [cwA, cwB, cwR, DiscreteRandomVariable.add, combine, kvList, dictOf,
      addToAssoc, mkDRV, sortPairs, List.insertionSort, List.orderedInsert, pairLe,
      round5, roundTo, rndHalfEven, List.range_succ]
    rfl
  refine ⟨rfl, rfl, by norm_num [cwA], by norm_num [cwB], hadd,
    ((claim_C2_convolution cwA cwB rfl rfl (by norm_num [cwA])
      (by norm_num [cwB])).1 cwR hadd 11).1, ?_⟩
  norm_num [cwR, DiscreteRandomVariable.mass, massOf]
theorem mkBinomialModel_ok {s0 u d p q rate : ℚ} {periods : ℕ} {m : BinomialModel}
    (h : mkBinomialModel s0 u d p q rate periods = .ok m) :
    m.risk_neutral = riskNeutral u d rate ∧ m.rate = rate ∧ m.s0 = s0 ∧
    m.periods = periods := by
  unfold mkBinomialModel at h
  cases h1 : mkDRV [u, d] (some [p, q]) "X" with
  | error e =>
    rw [h1] at h
    simp only [bind, Except.bind] at h
    exact Except.noConfusion h
  | ok inc =>
    rw [h1] at h
    simp only [bind, Except.bind] at h
    cases h2 : mkDRV [u, d]
        (some [(riskNeutral u d rate).1, (riskNeutral u d rate).2]) "X" with
    | error e =>
      rw [h2] at h
      exact Except.noConfusion h
    | ok incRN =>
      rw [h2] at h
      simp only [pure, Except.pure, Except.ok.injEq] at h
      rw [← h]
      exact ⟨rfl, rfl, rfl, rfl⟩

/-- Claim C3: for every `BinomialModel` constructed from `s0, u, d, p, q, rate`
with `u ≠ d`, the stored risk-neutral pair is
`((1+rate-d)/(u-d), (u-1-rate)/(u-d))`, and it sums to 1 and satisfies
`π_u·u + π_d·d = 1 + rate`. -/
theorem claim_C3_risk_neutral (s0 u d p q rate : ℚ) (periods : ℕ)
    (m : BinomialModel) (hud : u ≠ d)
    (h : mkBinomialModel s0 u d p q rate periods = .ok m) :
    m.risk_neutral = ((1 + rate - d) / (u - d), (u - 1 - rate) / (u - d)) ∧
    m.risk_neutral.1 + m.risk_neutral.2 = 1 ∧
    m.risk_neutral.1 * u + m.risk_neutral.2 * d = 1 + rate := by
  obtain ⟨hrn, -, -, -⟩ := mkBinomialModel_ok h
  have hsub : u - d ≠ 0 := sub_ne_zero.mpr hud
  refine ⟨hrn, ?_, ?_⟩ <;> rw [hrn] <;> simp only [riskNeutral] <;>
    field_simp <;> ring

def rnM : BinomialModel :=
  ⟨⟨"X", [4/5, 6/5], [1/2, 1/2]⟩, 1, 0, 100, (1/2, 1/2),
   ⟨"X", [4/5, 6/5], [1/2, 1/2]⟩⟩

/-- Witness for C3 at the spec's one-period example `u = 1.2, d = 0.8,
rate = 0`: the risk-neutral pair is `(1/2, 1/2)`. -/
theorem claim_C3_witness :
    (6/5 : ℚ) ≠ 4/5 ∧
    mkBinomialModel 100 (6/5) (4/5) (1/2) (1/2) 0 1 = .ok rnM ∧
    (rnM.risk_neutral = ((1 + 0 - 4/5) / (6/5 - 4/5), (6/5 - 1 - 0) / (6/5 - 4/5)) ∧
     rnM.risk_neutral.1 + rnM.risk_neutral.2 = 1 ∧
     rnM.risk_neutral.1 * (6/5) + rnM.risk_neutral.2 * (4/5) = 1 + 0) := by
  have hM : mkBinomialModel 100 (6/5) (4/5) (1/2) (1/2) 0 1 = .ok rnM := by
    norm_num [mkBinomialModel, riskNeutral, mkDRV, sortPairs, List.insertionSort,
      List.orderedInsert, pairLe, rnM, bind, Except.bind, pure, Except.pure]
  exact ⟨by norm_num, hM,
    claim_C3_risk_neutral 100 (6/5) (4/5) (1/2) (1/2) 0 1 rnM (by norm_num) hM⟩
/-- Claim C4: with `periods = 0`, `european_option_evaluate` returns the
payoff applied to the deterministic price `s0` (the multiply loop runs zero
times and the discount factor is `(1+rate)^0 = 1`). -/
theorem claim_C4_zero_period (m : BinomialModel) (call : Bool) (strike : ℚ)
    (h : m.periods = 0) :
    europeanOptionEvaluate m call strike = .ok (payoff call strike m.s0) := by
  norm_num [europeanOptionEvaluate, h, iterMul, mkDRV, sortPairs,
    List.insertionSort, List.orderedInsert, DiscreteRandomVariable.transform,
    DiscreteRandomVariable.expectation, dictOf, addToAssoc, List.range_succ,
    bind, Except.bind, pure, Except.pure]

def zpM : BinomialModel :=
  ⟨⟨"X", [9/10, 11/10], [1/2, 1/2]⟩, 0, 1/20, 100, (3/4, 1/4),
   ⟨"X", [9/10, 11/10], [1/4, 3/4]⟩⟩

/-- Witness for C4 at the claim's own input
`BinomialModel(s0=100, u=1.1, d=0.9, p=0.5, q=0.5, rate=0.05, periods=0)`:
the call struck at 90 is worth exactly `max(100-90, 0) = 10`. -/
theorem claim_C4_witness :
    mkBinomialModel 100 (11/10) (9/10) (1/2) (1/2) (1/20) 0 = .ok zpM ∧
    zpM.periods = 0 ∧
    europeanOptionEvaluate zpM true 90 = .ok 10 := by
  refine ⟨?_, rfl, ?_⟩
  · norm_num [mkBinomialModel, riskNeutral, mkDRV, sortPairs, List.insertionSort,
      List.orderedInsert, pairLe, zpM, bind, Except.bind, pure, Except.pure]
  · rw [claim_C4_zero_period zpM true 90 rfl]
    norm_num [zpM, payoff]

/-- Claim C9: `dispersion()` is the expectation of `(x - mu)²` with
`mu = expectation()`, computed through the expectation primitive (first
conjunct, the claim's consistency equation), and hence equals the explicit
second central moment `Σ (x_i - mu)²·p_i` (second conjunct). -/
theorem claim_C9_dispersion (X : DRV) :
    X.dispersion none =
      X.expectation (fun x => (x - X.expectation (fun y => y) none) ^ 2) none ∧
    X.dispersion none = ((List.range X.domain.length).map (fun i =>
      (X.domain.getD i 0 - X.expectation (fun y => y) none) ^ 2 *
        X.probability.getD i 0)).sum :=
  ⟨rfl, rfl⟩
/-- Counterexample to claim C5: the constructor performs no duplicate-domain
check at all.  `DiscreteRandomVariable([1, 1])` succeeds, and the stored
domain `[1, 1]` is not strictly ascending. -/
theorem claim_C5_counterexample :
    mkDRV [1, 1] none "X" = .ok ⟨"X", [1, 1], [1/2, 1/2]⟩ ∧
    ¬ List.Sorted (fun a b : ℚ => a < b) [1, 1] := by
  constructor
  · norm_num [mkDRV, sortPairs, List.insertionSort, List.orderedInsert, pairLe]
  · simp [List.sorted_cons]

/-- Claim C5 as amended: construction with explicit weights succeeds exactly
when the weights match the domain in length and have positive sum — no
`InvalidDomain`/duplicate check exists — and construction with uniform
weights always succeeds, so DRVs with repeated (hence non-strictly-ascending)
domain entries are produced. -/
theorem claim_C5_amended (domain ws : List ℚ) (name : String) :
    ((∃ X, mkDRV domain (some ws) name = .ok X) ↔
      ws.length = domain.length ∧ 0 < ws.sum) ∧
    (∃ X, mkDRV domain none name = .ok X) := by
  constructor
  · constructor
    · rintro ⟨X, hX⟩
      exact ⟨(mkDRV_ok_some hX).1, (mkDRV_ok_some hX).2.1⟩
    · rintro ⟨h1, h2⟩
      exact ⟨_, by rw [mkDRV_some_def, if_pos h1, if_pos h2]⟩
  · exact ⟨_, rfl⟩

theorem list_sum_map_div (l : List ℚ) (s : ℚ) :
    (l.map (fun w => w / s)).sum = l.sum / s := by
  induction l with
  | nil => simp
  | cons a t ih => simp [ih, add_div]

theorem mkDRV_none_def (domain : List ℚ) (name : String) :
    mkDRV domain none name =
      .ok ⟨name,
        (sortPairs (domain.map (fun d => (d, 1 / (domain.length : ℚ))))).map Prod.fst,
        (sortPairs (domain.map (fun d => (d, 1 / (domain.length : ℚ))))).map Prod.snd⟩ :=
  rfl

/-- Counterexample to claim C8: the constructor checks only that the total
weight is positive, so `DiscreteRandomVariable([1,2], [-1,2])` succeeds and
stores the negative probability `-1`. -/
theorem claim_C8_counterexample :
    mkDRV [1, 2] (some [-1, 2]) "X" = .ok ⟨"X", [1, 2], [-1, 2]⟩ ∧
    ¬ (0 ≤ (DiscreteRandomVariable.mk "X" [1, 2] [-1, 2]).probability.getD 0 0) := by
  constructor
  · norm_num [mkDRV, sortPairs, List.insertionSort, List.orderedInsert, pairLe]
  · norm_num

/-- Claim C8 as amended: every successful construction from a nonempty
domain (and hence the result of every operation, all of which re-enter the
constructor) has probabilities summing exactly to 1; individual entries may
however be negative, as the constructor only requires a positive total. -/
theorem claim_C8_amended_sum (domain : List ℚ) (weights : Option (List ℚ))
    (name : String) (X : DRV) (hne : domain ≠ [])
    (h : mkDRV domain weights name = .ok X) :
    X.probability.sum = 1 := by
  cases weights with
  | some ws =>
    obtain ⟨h1, h2, -, -, hp⟩ := mkDRV_ok_some h
    rw [hp, ((sortPairs_perm _).map Prod.snd).sum_eq,
      List.map_snd_zip _ _ (by rw [List.length_map, h1]), list_sum_map_div,
      div_self (ne_of_gt h2)]
  | none =>
    rw [mkDRV_none_def] at h
    cases h
    rw [((sortPairs_perm _).map Prod.snd).sum_eq, List.map_map]
    have hmap : (domain.map (Prod.snd ∘ fun d => (d, 1 / (domain.length : ℚ)))) =
        domain.map (fun _ => 1 / (domain.length : ℚ)) := rfl
    have hn : (domain.length : ℚ) ≠ 0 := by
      have := List.length_pos.mpr hne
      positivity
    rw [hmap, List.map_const', List.sum_replicate, nsmul_eq_mul,
      mul_one_div, div_self hn]

def c8X : DRV := ⟨"X", [1, 2], [1/2, 1/2]⟩

/-- Witness for the amended C8: `DiscreteRandomVariable([1,2])` yields
probabilities `[1/2, 1/2]`, summing to 1. -/
theorem claim_C8_witness :
    ([1, 2] : List ℚ) ≠ [] ∧ mkDRV [1, 2] none "X" = .ok c8X ∧
    c8X.probability.sum = 1 := by
  have hc : mkDRV [1, 2] none "X" = .ok c8X := by
    norm_num [mkDRV, sortPairs, List.insertionSort, List.orderedInsert, pairLe, c8X]
  exact ⟨by simp, hc, claim_C8_amended_sum [1, 2] none "X" c8X (by simp) hc⟩
/-- Claim C1 is contradicted by the code: `delta` passes `self.periods - 1`
positionally into the constructor's `rate` parameter and leaves `periods` at
its default value 1, so its sub-models do NOT keep the parent's rate and do
NOT have one fewer period.  At the claim's standard one-period input
(`s0=100, u=1.1, d=0.9, p=q=0.5, rate=0.05, periods=1`, call struck at 90)
the code returns `31/40 = 0.775`, while the construction the claim
describes returns the replicating-portfolio delta `1`. -/
theorem claim_C1_delta_rate_bug :
    (do
      let m ← mkBinomialModel 100 (11/10) (9/10) (1/2) (1/2) (1/20) 1
      BinomialModel.delta m true 90) = .ok (31/40) ∧
    (do
      let m ← mkBinomialModel 100 (11/10) (9/10) (1/2) (1/2) (1/20) 1
      deltaAsClaimed m true 90) = .ok 1 ∧
    (31/40 : ℚ) ≠ 1 := by
  refine ⟨?_, ?_, by norm_num⟩ <;>
    norm_num [mkBinomialModel, mkDRV, sortPairs, List.insertionSort,
      List.orderedInsert, pairLe, riskNeutral, BinomialModel.delta,
      deltaAsClaimed, europeanOptionEvaluate, iterMul,
      DiscreteRandomVariable.mul, combine, kvList, dictOf, addToAssoc,
      DiscreteRandomVariable.transform, DiscreteRandomVariable.expectation,
      payoff, round5, roundTo, rndHalfEven, List.range_succ, bind, Except.bind,
      pure, Except.pure]

theorem pickScan_lt (t : ℚ) :
    ∀ (rest : List ℚ) (w : ℚ) (i : ℕ), t < w + rest.sum →
      ∃ j, pickScan t rest w i = some j ∧ j ≤ i + rest.length := by
  intro rest
  induction rest with
  | nil =>
    intro w i h
    rw [List.sum_nil, add_zero] at h
    exact ⟨i, by rw [pickScan, if_neg (lt_asymm h)], by omega⟩
  | cons p tl ih =>
    intro w i h
    by_cases ht : t > w
    · have h2 : t < (w + p) + tl.sum := by
        rw [List.sum_cons] at h
        linarith
      obtain ⟨j, hj, hle⟩ := ih (w + p) (i + 1) h2
      refine ⟨j, by rw [pickScan, if_pos ht]; exact hj, ?_⟩
      rw [List.length_cons]
      omega
    · exact ⟨i, by rw [pickScan, if_neg ht], by omega⟩

/-- Claim C10: for a DRV whose probabilities are non-negative and sum to at
least 1, and a draw `t ∈ [0,1)`, the accumulating scan of `pick` stops at an
index strictly below the number of outcomes — it never runs off the end of
the probability (or domain) array. -/
theorem claim_C10_pick_safe (X : DRV) (t : ℚ)
    (hnn : ∀ pr ∈ X.probability, 0 ≤ pr) (hsum : 1 ≤ X.probability.sum)
    (ht0 : 0 ≤ t) (ht1 : t < 1) :
    ∃ i, X.pickIndex t = some i ∧ i < X.probability.length := by
  cases hX : X.probability with
  | nil =>
    rw [hX, List.sum_nil] at hsum
    norm_num at hsum
  | cons p tl =>
    have h : t < p + tl.sum := by
      rw [hX, List.sum_cons] at hsum
      linarith
    obtain ⟨j, hj, hle⟩ := pickScan_lt t tl p 0 h
    refine ⟨j, ?_, ?_⟩
    · unfold DiscreteRandomVariable.pickIndex
      rw [hX]
      exact hj
    · rw [List.length_cons]
      omega

def pkX : DRV := ⟨"E", [0, 1], [3/10, 7/10]⟩

/-- Witness for C10 on `DRV({0,1},{0.3,0.7})` with draw `t = 1/2`: the scan
stops at index 1, inside the two-element arrays. -/
theorem claim_C10_witness :
    (∀ pr ∈ pkX.probability, 0 ≤ pr) ∧ 1 ≤ pkX.probability.sum ∧
    (0 : ℚ) ≤ 1/2 ∧ (1/2 : ℚ) < 1 ∧
    ∃ i, pkX.pickIndex (1/2) = some i ∧ i < pkX.probability.length := by
  have h1 : ∀ pr ∈ pkX.probability, 0 ≤ pr := by
    intro pr hpr
    simp only [pkX, List.mem_cons, List.not_mem_nil, or_false] at hpr
    rcases hpr with h | h <;> rw [h] <;> norm_num
  have h2 : (1 : ℚ) ≤ pkX.probability.sum := by norm_num [pkX]
  exact ⟨h1, h2, by norm_num, by norm_num,
    claim_C10_pick_safe pkX (1/2) h1 h2 (by norm_num) (by norm_num)⟩
